import Mathlib

/-!
Verification of the chunked dump-processing pipeline
(`src/reader/dump_reader.py`, `src/pipeline/runner.py`,
`src/models/record/record_factory.py`, `src/models/results/stage_result.py`).

The Python source is shallowly embedded: a file is a `List Char`, offsets are
`Nat`, fallible code returns `Except String`, and laziness is dropped: every
generator is embedded as the finite list of the values it yields.

The chunker works on bytes (binary mode) while the record reader advances by
text-mode character counts, so the file is modelled at two levels. The basic
reader model `record_from_chunk_gen` identifies one character with one byte —
exact for single-byte (ASCII) data. The byte-accurate model feeds the chunker
the UTF-8 byte sequence (`utf8Bytes`) and lets the reader
(`record_from_chunk_gen_utf8`) mix a byte-offset seek with character-count
increments exactly as the source does; the two models agree on single-byte
data (`record_from_chunk_gen_utf8_ascii`) and diverge on multibyte input.

External collaborators (the Python `json` module and the year-normalization
heuristic `extract_year`, which the specification scopes out as black boxes)
are passed as function parameters to the definitions that call them.
-/

/-! ## `DumpReader.batch_generator` (src/reader/dump_reader.py, lines 139-159)

```
batch = []
for item in generator:
    batch.append(item)
    if len(batch) == batch_size:
        yield batch
        batch = []
if batch:
    yield batch
```

`batch` is the accumulator `acc`; the Python `len(batch) == batch_size`
comparison is between an `int` parameter and a non-negative length, so the
model keeps `batch_size : Int`. -/

def bgAux {T : Type} (batch_size : Int) (acc : List T) : List T → List (List T)
  | [] => if acc.isEmpty then [] else [acc]
  | x :: rest =>
    let acc2 := acc ++ [x]
    if (acc2.length : Int) = batch_size then acc2 :: bgAux batch_size [] rest
    else bgAux batch_size acc2 rest

/-- Embedding of `DumpReader.batch_generator`: the list of batches the generator yields. -/
def batch_generator {T : Type} (generator : List T) (batch_size : Int) : List (List T) :=
  bgAux batch_size [] generator

/-! ## `StageResult` (src/models/results/stage_result.py)

`success`/`failed` collect whatever the callers append (the entry stage in
`src/pipeline/runner.py` appends unwrapped records and strings, so the
`Ok`/`Err` wrappers of `src/models/results/types.py` are identity wrappers at
this boundary and the element types are kept abstract). -/

structure StageResult (T E : Type) where
  stage_name : String
  details : String
  has_failed : Bool
  success : List T
  failed : List E

/-- Method `StageResult.add_ok`: append a success. -/
def StageResult.add_ok {T E : Type} (sr : StageResult T E) (record : T) : StageResult T E :=
  { sr with success := sr.success ++ [record] }

/-- Method `StageResult.add_err`: append a record-level failure. -/
def StageResult.add_err {T E : Type} (sr : StageResult T E) (error : E) : StageResult T E :=
  { sr with failed := sr.failed ++ [error] }

/-- Method `StageResult.mark_failed`: set the catastrophic flag (the Python default
argument is `True`; the model passes the value explicitly). -/
def StageResult.mark_failed {T E : Type} (sr : StageResult T E) (value : Bool) : StageResult T E :=
  { sr with has_failed := value }

/-- The `has_failed` property setter. -/
def StageResult.set_has_failed {T E : Type} (sr : StageResult T E) (value : Bool) : StageResult T E :=
  { sr with has_failed := value }

/-- Method `StageResult.__len__`. -/
def StageResult.size {T E : Type} (sr : StageResult T E) : Nat :=
  sr.success.length + sr.failed.length

/-- The four mutating operations a caller can apply to a `StageResult`. -/
inductive StageOp (T E : Type) where
  | addOk (record : T)
  | addErr (error : E)
  | markFailed (value : Bool)
  | setHasFailed (value : Bool)

def applyStageOp {T E : Type} (sr : StageResult T E) : StageOp T E → StageResult T E
  | .addOk r => sr.add_ok r
  | .addErr e => sr.add_err e
  | .markFailed v => sr.mark_failed v
  | .setHasFailed v => sr.set_has_failed v

def applyStageOps {T E : Type} (sr : StageResult T E) (ops : List (StageOp T E)) :
    StageResult T E :=
  ops.foldl applyStageOp sr

def StageOp.isAddOk {T E : Type} : StageOp T E → Bool
  | .addOk _ => true
  | _ => false

def StageOp.isAddErr {T E : Type} : StageOp T E → Bool
  | .addErr _ => true
  | _ => false

/-- Whether an operation touches the catastrophic flag (`mark_failed` or the
`has_failed` setter). -/
def StageOp.isFlagOp {T E : Type} : StageOp T E → Bool
  | .markFailed _ => true
  | .setHasFailed _ => true
  | _ => false

/-! ## Records and JSON payloads
(src/models/record/transport_record.py, record_interface.py, edition_record.py,
author_record.py)

Parsed JSON values (the output of the external `json.loads`). The embedding
identifies Python `None` with `Json.null`: `json.loads` maps JSON `null` to
`None`, and `dict.get` returns `None` for a missing key. -/

inductive Json where
  | null
  | bool (b : Bool)
  | num (n : Int)
  | str (s : String)
  | arr (elems : List Json)
  | obj (entries : List (String × Json))

/-- Embedding of `TransportRecord`: `_ol_id` is the field inherited from `IRecord`. -/
structure TransportRecord where
  ol_id : String
  json_string : String
  r_type : String
deriving DecidableEq

/-- Embedding of `EditionRecord`. `ocaid` and `title` keep whatever JSON value
`_process_edition_record` stores in them (the Python constructor does not
coerce them). -/
structure EditionRecord where
  ol_id : String
  ocaid : Json
  title : Json
  publishing_date : Int
  copyright_date : Int
  authors : List String
  languages : List String
  isbn_10 : List String
  isbn_13 : List String
  works : List String

/-- Embedding of `AuthorRecord` (`_work_count` starts at its default 0). -/
structure AuthorRecord where
  ol_id : String
  name : String
  birth_date : Int
  death_date : Int
  is_death_date_exact : Bool
  work_count : Int

/-- Embedding of `IRecord`: the closed family of record variants flowing through the
pipeline. -/
inductive IRecord where
  | transport (t : TransportRecord)
  | edition (e : EditionRecord)
  | author (a : AuthorRecord)

/-! ## `record_factory` (src/models/record/record_factory.py)

`json.loads` and `extract_year` are external collaborators (the spec's
`normalize_year` black box); they are parameters `json_loads` and
`extract_year` below. -/

/-- Lookup in a parsed JSON object; a later duplicate key shadows an earlier
one, as in `json.loads`. -/
def jsonGet (entries : List (String × Json)) (key : String) : Option Json :=
  (entries.reverse.find? (fun kv => kv.1 == key)).map (fun kv => kv.2)

/-- Python `data.get(key)`: `none` both when the key is absent and when it is
bound to JSON `null` (both are Python `None`). -/
def pyGet (entries : List (String × Json)) (key : String) : Option Json :=
  match jsonGet entries key with
  | some Json.null => none
  | v => v

/-- The alternative-fields loop of `_get_str`. -/
def getStrAlt (entries : List (String × Json)) : List String → String
  | [] => ""
  | af :: rest =>
    match pyGet entries af with
    | some (Json.str s) => s
    | _ => getStrAlt entries rest

/-- Helper `_get_str`: first string value among `field` then `alt_fields`, else `""`. -/
def get_str (entries : List (String × Json)) (field : String) (alt_fields : List String) :
    String :=
  match pyGet entries field with
  | some (Json.str s) => s
  | _ => getStrAlt entries alt_fields

/-- Helper `_get_list`: a list value as-is, `None`/missing as `[]`, any other single
value wrapped in a singleton list. -/
def get_list (entries : List (String × Json)) (field : String) : List Json :=
  match pyGet entries field with
  | none => []
  | some (Json.arr xs) => xs
  | some v => [v]

/-- Python `str.split(sep)`: split on every occurrence, keeping empty parts. -/
def splitSep (sep : Char) : List Char → List (List Char)
  | [] => [[]]
  | c :: rest =>
    let r := splitSep sep rest
    if c = sep then [] :: r
    else
      match r with
      | p :: ps => (c :: p) :: ps
      | [] => [[c]]

/-- Python `s.split('/')[-1]` (a non-empty split list always results, so the
default is never taken). -/
def lastSegment (s : String) : String := String.mk ((splitSep '/' s.data).getLastD [])

/-- Python truthiness of a JSON value (with `None` as `Json.null`). -/
def pyTruthy : Json → Bool
  | Json.null => false
  | Json.bool b => b
  | Json.num n => n != 0
  | Json.str s => !s.isEmpty
  | Json.arr xs => !xs.isEmpty
  | Json.obj entries => !entries.isEmpty

/-- One reference-normalization loop of `_process_edition_record` (authors,
languages and works all use the same shape):

```
for a in raw:
    if isinstance(a, dict):
        val = a.get("key")
        out.append(val.split("/")[-1])
```

A dict element whose `"key"` is absent or not a string makes `val.split`
raise `AttributeError` (aborting the whole record); a non-dict element —
including a bare string ID — is skipped. -/
def linkRefs : List Json → Except String (List String)
  | [] => Except.ok []
  | a :: rest =>
    match a with
    | Json.obj kvs =>
      match pyGet kvs "key" with
      | some (Json.str s) => do
          let r ← linkRefs rest
          Except.ok (lastSegment s :: r)
      | _ => Except.error "AttributeError: object has no attribute 'split'"
    | _ => linkRefs rest

/-- The body of `_process_edition_record` after `json.loads` produced a dict
(lines 46-91). -/
def process_edition_data (extract_year : String → Bool → Int × Bool) (ol_id : String)
    (entries : List (String × Json)) : Except String EditionRecord := do
  let ocaid := match jsonGet entries "ocaid" with
    | some v => if pyTruthy v then v else Json.str ""
    | none => Json.str ""
  let title := (pyGet entries "title").getD Json.null
  let publishing_date := (extract_year (get_str entries "publish_date" []) true).1
  let copyright_date := (extract_year (get_str entries "copyright_date" ["copyright"]) true).1
  let authors ← linkRefs (get_list entries "authors")
  let languages ← linkRefs (get_list entries "languages")
  let isbn_10 := (get_list entries "isbn_10").filterMap
    (fun v => match v with | Json.str s => some s | _ => none)
  let isbn_13 := (get_list entries "isbn_13").filterMap
    (fun v => match v with | Json.str s => some s | _ => none)
  let works ← linkRefs (get_list entries "works")
  Except.ok
    { ol_id, ocaid, title, publishing_date, copyright_date, authors, languages,
      isbn_10, isbn_13, works }

/-- Embedding of `_process_edition_record`: parse the payload (a non-dict payload raises
`AttributeError` at the first `data.get`), then normalize fields. -/
def process_edition_record (json_loads : String → Except String Json)
    (extract_year : String → Bool → Int × Bool) (t : TransportRecord) :
    Except String EditionRecord := do
  let data ← json_loads t.json_string
  match data with
  | Json.obj entries => process_edition_data extract_year (lastSegment t.ol_id) entries
  | _ => Except.error "AttributeError: object has no attribute 'get'"

/-- Embedding of `_process_author_record` (uses `_parse_year`, i.e. `extract_year` with
`no_aprox = False`; the approximation signal is stored as
`is_death_date_exact`). -/
def process_author_record (json_loads : String → Except String Json)
    (extract_year : String → Bool → Int × Bool) (t : TransportRecord) :
    Except String AuthorRecord := do
  let data ← json_loads t.json_string
  match data with
  | Json.obj entries =>
    let ol_id := lastSegment t.ol_id
    let name := get_str entries "name" []
    let birth := extract_year (get_str entries "birth_date" []) false
    let death := extract_year (get_str entries "death_date" []) false
    Except.ok
      { ol_id, name, birth_date := birth.1, death_date := death.1,
        is_death_date_exact := death.2, work_count := 0 }
  | _ => Except.error "AttributeError: object has no attribute 'get'"

/-- Embedding of `process_record` (src/models/record/record_factory.py, lines 16-40):
dispatch on the last path segment of the type tag. Raised exceptions become
`Except.error` carrying `str(e)`: `NotImplementedError` for `"work"`,
`UnknownRecordTypeError` (message `"Unknown record type: <tag>"`) otherwise. -/
def process_record (json_loads : String → Except String Json)
    (extract_year : String → Bool → Int × Bool) (t_record : Option TransportRecord) :
    Except String IRecord :=
  match t_record with
  | none => Except.error "TransportRecord cannot be None"
  | some t =>
    let record_type := lastSegment t.r_type
    if record_type = "work" then Except.error "work record processing not implemented"
    else if record_type = "edition" then
      (process_edition_record json_loads extract_year t).map IRecord.edition
    else if record_type = "author" then
      (process_author_record json_loads extract_year t).map IRecord.author
    else Except.error ("Unknown record type: " ++ record_type)

/-- Embedding of `_make_entry_stage_from_generator` (src/pipeline/runner.py, lines 162-172):
fold a batch into a fresh `StageResult`, catching every `process_record`
exception as an `add_err` of its message. -/
def make_entry_stage_from_generator (json_loads : String → Except String Json)
    (extract_year : String → Bool → Int × Bool)
    (data : Option (List TransportRecord)) : Except String (StageResult IRecord String) :=
  match data with
  | none => Except.error "Data generator cannot be None"
  | some batch =>
    Except.ok (batch.foldl
      (fun result record =>
        match process_record json_loads extract_year (some record) with
        | Except.ok r => result.add_ok r
        | Except.error e => result.add_err e)
      { stage_name := "Entry point", details := "Initial Stage Result with transport records",
        has_failed := false, success := [], failed := [] })

/-! ## File chunking (src/reader/dump_reader.py, lines 28-97) -/

/-- Predicate `is_new_line(position)`: true at position 0, or when the byte before the
position is `\n` (reading at or past EOF returns `b''`, which is not `b'\n'`). -/
def isNewLine (data : List Char) (pos : Nat) : Bool :=
  pos == 0 || data[pos - 1]? == some '\n'

/-- Length of the physical line starting a suffix: up to and including the
first `\n`, or the whole suffix when it contains none (Python `readline`). -/
def lineLen : List Char → Nat
  | [] => 0
  | c :: rest => if c = '\n' then 1 else 1 + lineLen rest

/-- Helper `next_line(position)`: `f.seek(position); f.readline(); return f.tell()`. -/
def nextLine (data : List Char) (pos : Nat) : Nat :=
  pos + lineLen (data.drop pos)

/-- The walk-back loop
`while chunk_end > 0 and not is_new_line(chunk_end): chunk_end -= 1`. -/
def walkBack (data : List Char) : Nat → Nat
  | 0 => 0
  | e + 1 => if isNewLine data (e + 1) then e + 1 else walkBack data e

/-- The body of one chunking iteration: propose
`chunk_end = min(file_size, chunk_start + chunk_size)`, walk it back to a
line boundary, and if it collapsed onto `chunk_start` advance it to the end
of the next line instead. -/
def chunkEnd (data : List Char) (chunk_size chunk_start : Nat) : Nat :=
  let e1 := walkBack data (min data.length (chunk_start + chunk_size))
  if e1 = chunk_start then nextLine data e1 else e1

/-- The `while chunk_start < file_size` loop of `get_file_chunks`. Structural
fuel stands in for the while loop; `file_size + 1` steps always suffice
because every iteration strictly advances `chunk_start` (established in the
loop invariant proof). Chunks are `(start, end)` pairs; `Chunk.__init__`
(src/models/file_chunk.py) accepts every pair produced here because
`start < end` always holds under that invariant. -/
def chunkLoop (data : List Char) (chunk_size : Nat) : Nat → Nat → List (Nat × Nat)
  | 0, _ => []
  | fuel + 1, chunk_start =>
    if chunk_start < data.length then
      (chunk_start, chunkEnd data chunk_size chunk_start)
        :: chunkLoop data chunk_size fuel (chunkEnd data chunk_size chunk_start)
    else []

/-- Embedding of `DumpReader.get_file_chunks`: `cpu_count = min(max_cpu, mp.cpu_count())`
(the machine's reported CPU count is the `cpu_total` parameter),
`chunk_size = file_size // cpu_count`; returns
`(cpu_count, len(chunks), chunks)`. -/
def get_file_chunks (data : List Char) (max_cpu cpu_total : Nat) :
    Except String (Nat × Nat × List (Nat × Nat)) :=
  let cpu_count := min max_cpu cpu_total
  if cpu_count < 1 then
    Except.error "At least one CPU core is required for processing."
  else
    let chunk_size := data.length / cpu_count
    let chunks := chunkLoop data chunk_size (data.length + 1) 0
    Except.ok (cpu_count, chunks.length, chunks)

/-! ## Record streaming (src/reader/dump_reader.py, lines 100-137) -/

/-- Python `str.strip()` whitespace, restricted to the ASCII whitespace
characters (the dump framing is ASCII). -/
def isPySpace (c : Char) : Bool :=
  c = ' ' || c = '\t' || c = '\n' || c = '\r' || c = Char.ofNat 11 || c = Char.ofNat 12

/-- Python `line.strip()`. -/
def pyStrip (l : List Char) : List Char :=
  ((l.dropWhile isPySpace).reverse.dropWhile isPySpace).reverse

/-- The per-line body of `record_from_chunk_gen`: strip; skip blank lines;
split on tabs; skip lines without exactly 5 fields; otherwise yield
`TransportRecord(r_type=parts[0], _ol_id=parts[1], json_string=parts[4])`. -/
def parseLine (l : List Char) : Option TransportRecord :=
  let stripped := pyStrip l
  if stripped.isEmpty then none
  else
    match splitSep '\t' stripped with
    | [p0, p1, _, _, p4] =>
      some { ol_id := String.mk p1, json_string := String.mk p4, r_type := String.mk p0 }
    | _ => none

/-- Cut a character stream into physical lines, each including its
terminating `\n` (a final unterminated line is kept as-is): Python text-mode
iteration from a seek position. `cur` accumulates the current line reversed. -/
def splitLinesGo (cur : List Char) : List Char → List (List Char)
  | [] => if cur.isEmpty then [] else [cur.reverse]
  | c :: rest =>
    if c = '\n' then (cur.reverse ++ ['\n']) :: splitLinesGo [] rest
    else splitLinesGo (c :: cur) rest

def splitLines (s : List Char) : List (List Char) := splitLinesGo [] s

/-- The line loop of `record_from_chunk_gen`:
`chunk_start += len(line); if chunk_start > chunk_end: break`, then the
per-line body. `pos` is the running offset (the mutated `chunk_start`). -/
def recordsOverLines (chunk_end : Nat) : Nat → List (List Char) → List TransportRecord
  | _, [] => []
  | pos, l :: ls =>
    let pos2 := pos + l.length
    if chunk_end < pos2 then []
    else (parseLine l).toList ++ recordsOverLines chunk_end pos2 ls

/-- Embedding of `DumpReader.record_from_chunk_gen` under the identification
of one character with one byte: exact for single-byte (ASCII) data, where the
text-mode `chunk_start += len(line)` counts coincide with the chunker's byte
offsets. The byte-accurate model for arbitrary UTF-8 data is
`record_from_chunk_gen_utf8` below. -/
def record_from_chunk_gen (data : List Char) (chunk_start chunk_end : Nat) :
    List TransportRecord :=
  recordsOverLines chunk_end chunk_start (splitLines (data.drop chunk_start))

/-- Number of bytes of the UTF-8 encoding of a character. -/
def utf8CharBytes (c : Char) : Nat :=
  if c.toNat < 0x80 then 1
  else if c.toNat < 0x800 then 2
  else if c.toNat < 0x10000 then 3
  else 4

/-- UTF-8 encoding of one character, each byte as a `Char` of that value. -/
def utf8EncodeChar (c : Char) : List Char :=
  let v := c.toNat
  if v < 0x80 then [c]
  else if v < 0x800 then
    [Char.ofNat (0xC0 + v / 0x40), Char.ofNat (0x80 + v % 0x40)]
  else if v < 0x10000 then
    [Char.ofNat (0xE0 + v / 0x1000), Char.ofNat (0x80 + v / 0x40 % 0x40),
     Char.ofNat (0x80 + v % 0x40)]
  else
    [Char.ofNat (0xF0 + v / 0x40000), Char.ofNat (0x80 + v / 0x1000 % 0x40),
     Char.ofNat (0x80 + v / 0x40 % 0x40), Char.ofNat (0x80 + v % 0x40)]

/-- The byte sequence of the file as stored on disk: what `get_file_chunks`
(binary mode, `os.path.getsize`) actually operates on. -/
def utf8Bytes (data : List Char) : List Char :=
  (data.map utf8EncodeChar).flatten

/-- Text-mode `f.seek(n)` with `n` a byte offset: the decoded character
stream starting at that offset (the chunker only produces offsets on
character boundaries — they sit right after a `\n` byte). -/
def dropBytes : List Char → Nat → List Char
  | [], _ => []
  | c :: rest, n => if n = 0 then c :: rest else dropBytes rest (n - utf8CharBytes c)

/-- Byte-accurate embedding of `DumpReader.record_from_chunk_gen`: the file is
opened in UTF-8 text mode, so the running offset starts at the byte seek value
`chunk_start` but each line advances it by `len(line)` — a character count —
while `chunk_end` is the chunker's byte offset. On multibyte input the count
falls short of the true byte position, so the loop can read past its chunk. -/
def record_from_chunk_gen_utf8 (data : List Char) (chunk_start chunk_end : Nat) :
    List TransportRecord :=
  recordsOverLines chunk_end chunk_start (splitLines (dropBytes data chunk_start))

/-- A UTF-8 file whose first line holds eleven two-byte characters (U+00E9)
plus its newline — 23 bytes but only 12 characters — followed by one
well-formed 5-column record line of 10 single-byte characters. -/
def accentedFile : List Char :=
  List.replicate 11 (Char.ofNat 233) ++ '\n' :: "a\tb\tc\td\te\n".data

/-- The transport record of `accentedFile`'s second line. -/
def duplicatedRecord : TransportRecord :=
  { ol_id := "b", json_string := "e", r_type := "a" }

/-! ## Pipeline runner (src/pipeline/runner.py) -/

/-- Modelled from the spec: `PipelineContext` (`src/pipeline/stage/context.py`
is absent from the repository snapshot; §3 of the specification describes it
as per-stage configuration data with no behaviour of its own, so the model
gives it no observable structure). -/
structure PipelineContext where

/-- A pipeline stage as the worker observes it. `StageInterface` is abstract;
concrete stages supply `process_batch` (which may return `None`, modelled as
an `Option` in and out since the worker threads the previous stage's return
value through untyped) and `shutdown` (which may raise). -/
structure StageModel where
  stage_name : String
  process_batch :
    Option (StageResult IRecord String) → PipelineContext → Option (StageResult IRecord String)
  shutdown : PipelineContext → Except String Unit

/-- Embedding of `_initialize_stages` (src/pipeline/runner.py, lines 134-159). The loop
header `for i, stage, ctx in enumerate(s)` unpacks each 2-tuple produced by
`enumerate` — `(i, (stage, ctx))` — into three targets, which raises
`ValueError: not enough values to unpack (expected 3, got 2)` at the first
element; the loop body (the isinstance validation and the `initialize`
calls) therefore only runs zero times, when `s` is empty. The factory
arguments are `Option` lists because the callers may pass `None`, which
fails the `isinstance(..., list)` checks. -/
def init_stages (stage_factory : Option (List (Unit → StageModel)))
    (ctx_factory : Option (List (Unit → PipelineContext))) :
    Except String (List (StageModel × PipelineContext)) :=
  match stage_factory with
  | none =>
    Except.error "stage_factory must be a list of callables producing StageInterface instances"
  | some sf =>
    match ctx_factory with
    | none =>
      Except.error "ctx_factory must be a list of callables producing PipelineContext instances"
    | some cf =>
      if sf.length ≠ cf.length then
        Except.error "stage_factory and ctx_factory must have the same length"
      else
        let stages := sf.map (fun f => f ())
        let context := cf.map (fun f => f ())
        match stages.zip context with
        | [] => Except.ok []
        | _ :: _ => Except.error "not enough values to unpack (expected 3, got 2)"

/-- One iteration of the worker's shutdown loop (src/pipeline/runner.py,
lines 76-81): `try: stage.shutdown(ctx) ... except Exception as e:
logger.exception(...)`. The event records which stage was invoked and whether
its shutdown succeeded; a raising shutdown is caught. -/
def shutdownEvent (sc : StageModel × PipelineContext) : String × Bool :=
  match sc.1.shutdown sc.2 with
  | Except.ok _ => (sc.1.stage_name, true)
  | Except.error _ => (sc.1.stage_name, false)

/-- The `for stage, ctx in reversed(pipeline)` loop, one event per iteration. -/
def shutdownLoop : List (StageModel × PipelineContext) → List (String × Bool)
  | [] => []
  | sc :: rest => shutdownEvent sc :: shutdownLoop rest

/-- The worker's complete shutdown phase. -/
def shutdown_stages (pipeline : List (StageModel × PipelineContext)) : List (String × Bool) :=
  shutdownLoop pipeline.reverse

/-- Embedding of `worker_thread` (src/pipeline/runner.py, lines 18-81): initialize the
pipeline (a raised `ValueError` propagates), read the chunk's records, batch
them, build the entry `StageResult` per batch and fold it through the stages,
then run the shutdown loop. Returns the per-batch pipeline outputs (evidence
the stream was drained) and the shutdown trace. -/
def worker_thread (json_loads : String → Except String Json)
    (extract_year : String → Bool → Int × Bool)
    (data : List Char) (chunk_start chunk_end : Nat) (batch_size : Int)
    (stage_factory : Option (List (Unit → StageModel)))
    (ctx_factory : Option (List (Unit → PipelineContext))) :
    Except String (List (Option (StageResult IRecord String)) × List (String × Bool)) := do
  let pipeline ← init_stages stage_factory ctx_factory
  let gen := record_from_chunk_gen data chunk_start chunk_end
  let results ← (batch_generator gen batch_size).mapM (fun batch => do
    let entry ← make_entry_stage_from_generator json_loads extract_year (some batch)
    Except.ok (pipeline.foldl (fun current sc => sc.1.process_batch current sc.2) (some entry)))
  Except.ok (results, shutdown_stages pipeline)

/-- A concrete well-behaved stage (used to exercise `_initialize_stages`). -/
def sampleStage : StageModel :=
  { stage_name := "s0", process_batch := fun current _ => current,
    shutdown := fun _ => Except.ok () }

/-- The entry result the worker builds for the one-record batch of the file
`"a\tb\tc\td\te\n"` (type tag `"a"` is unknown). -/
def entryUnknownA : StageResult IRecord String :=
  { stage_name := "Entry point", details := "Initial Stage Result with transport records",
    has_failed := false, success := [], failed := ["Unknown record type: a"] }

/-! ## Chunk boundary invariants -/

/-- Predicate `chained s chunks e`: the chunks tile `[s, e)` contiguously, each
non-degenerate. -/
def chained : Nat → List (Nat × Nat) → Nat → Prop
  | s, [], e => s = e
  | s, c :: rest, e => c.1 = s ∧ s < c.2 ∧ chained c.2 rest e

/-! ## Properties -/

/-- Bridge lemma: one step of `bgAux` seen as take/drop on `acc ++ l`. -/
theorem bgAux_spec {T : Type} (B : Nat) :
    ∀ (l acc : List T), acc.length < B →
      bgAux (B : Int) acc l =
        if acc.length + l.length < B then
          (if (acc ++ l).isEmpty then [] else [acc ++ l])
        else (acc ++ l.take (B - acc.length)) :: bgAux (B : Int) [] (l.drop (B - acc.length)) := by
  intro l
  induction l with
  | nil =>
    intro acc hacc
    simp only [bgAux, List.length_nil, Nat.add_zero, List.append_nil]
    rw [if_pos hacc]
  | cons x rest ih =>
    intro acc hacc
    simp only [bgAux]
    by_cases hfull : ((acc ++ [x]).length : Int) = (B : Int)
    · have hfull' : acc.length + 1 = B := by
        have h := hfull
        simp only [List.length_append, List.length_singleton] at h
        exact_mod_cast h
      rw [if_pos hfull]
      have hcond : ¬ (acc.length + (x :: rest).length < B) := by
        simp only [List.length_cons]; omega
      rw [if_neg hcond]
      have htake : B - acc.length = 1 := by omega
      rw [htake]
      simp [List.append_assoc]
    · have hlt : (acc ++ [x]).length < B := by
        have hne : (acc ++ [x]).length ≠ B := by
          intro h; exact hfull (by exact_mod_cast congrArg (Nat.cast : Nat → Int) h)
        have hlen1 : (acc ++ [x]).length = acc.length + 1 := by simp
        omega
      rw [if_neg hfull]
      rw [ih (acc ++ [x]) hlt]
      have hcond : ((acc ++ [x]).length + rest.length < B) ↔ (acc.length + (x :: rest).length < B) := by
        have h1 : (acc ++ [x]).length = acc.length + 1 := by simp
        have h2 : (x :: rest).length = rest.length + 1 := by simp
        omega
      have hlen : (acc ++ [x]).length = acc.length + 1 := by simp
      by_cases hsmall : acc.length + (x :: rest).length < B
      · rw [if_pos (hcond.mpr hsmall), if_pos hsmall]
        simp [List.append_assoc]
      · rw [if_neg (fun h => hsmall (hcond.mp h)), if_neg hsmall]
        have hk : B - acc.length = (B - (acc ++ [x]).length) + 1 := by
          rw [hlen]; omega
        rw [hk]
        simp only [List.take_succ_cons, List.drop_succ_cons]
        simp [List.append_assoc]

/-- Unfolding `batch_generator` one batch at a time. -/
theorem batch_generator_step {T : Type} (B : Nat) (hB : 0 < B) (l : List T) :
    batch_generator l (B : Int) =
      if l.length < B then (if l.isEmpty then [] else [l])
      else l.take B :: batch_generator (l.drop B) (B : Int) := by
  have h := bgAux_spec B l [] (by simpa using hB)
  simpa [batch_generator] using h

theorem batch_generator_nil {T : Type} (bs : Int) : batch_generator ([] : List T) bs = [] := rfl

theorem batch_generator_ne_nil {T : Type} (B : Nat) (hB : 0 < B) (l : List T) (hl : l ≠ []) :
    batch_generator l (B : Int) ≠ [] := by
  rw [batch_generator_step B hB l]
  by_cases h : l.length < B
  · simp [h, hl]
  · simp [h]

/-- Complete behavioural description of `batch_generator` for a positive batch size,
proved by strong induction on the input length. -/
theorem batcher_all {T : Type} (B : Nat) (hB : 0 < B) :
    ∀ (n : Nat) (l : List T), l.length ≤ n →
      (batch_generator l (B : Int)).length = (l.length + B - 1) / B
      ∧ (batch_generator l (B : Int)).flatten = l
      ∧ (∀ b ∈ (batch_generator l (B : Int)).dropLast, b.length = B)
      ∧ (l.length % B ≠ 0 →
          ∃ b, (batch_generator l (B : Int)).getLast? = some b ∧ b.length = l.length % B)
      ∧ (l.length % B = 0 → l ≠ [] →
          ∃ b, (batch_generator l (B : Int)).getLast? = some b ∧ b.length = B) := by
  intro n
  induction n with
  | zero =>
    intro l hl
    have hnil : l = [] := List.length_eq_zero.mp (Nat.le_zero.mp hl)
    subst hnil
    refine ⟨?_, by simp [batch_generator_nil], by simp [batch_generator_nil], ?_, ?_⟩
    · simp [batch_generator_nil]
      exact (Nat.div_eq_of_lt (by omega)).symm
    · intro h; simp at h
    · intro _ h; exact absurd rfl h
  | succ n ih =>
    intro l hl
    by_cases hnil : l = []
    · subst hnil
      refine ⟨?_, by simp [batch_generator_nil], by simp [batch_generator_nil], ?_, ?_⟩
      · simp [batch_generator_nil]
        exact (Nat.div_eq_of_lt (by omega)).symm
      · intro h; simp at h
      · intro _ h; exact absurd rfl h
    · have hpos : 0 < l.length := List.length_pos.mpr hnil
      rw [batch_generator_step B hB l]
      by_cases hlt : l.length < B
      · have hemp : l.isEmpty = false := by simp [hnil]
        rw [if_pos hlt, hemp]
        simp only [Bool.false_eq_true, if_false]
        have hmod : l.length % B = l.length := Nat.mod_eq_of_lt hlt
        refine ⟨?_, by simp, by simp, ?_, ?_⟩
        · have : (l.length + B - 1) / B = 1 :=
            Nat.div_eq_of_lt_le (by omega) (by omega)
          simp [this]
        · intro _; exact ⟨l, by simp, hmod.symm⟩
        · intro h0 _; omega
      · have hge : B ≤ l.length := Nat.le_of_not_lt hlt
        rw [if_neg hlt]
        have hdl : (l.drop B).length = l.length - B := by simp
        have harith1 : l.length + B - 1 = (l.length - B + B - 1) + B := by omega
        have harith2 : l.length - B + B = l.length := by omega
        have hmodeq : l.length % B = (l.length - B) % B := by
          conv_lhs => rw [← harith2]
          rw [Nat.add_mod_right]
        have hlen' : l.length - B ≤ n := by omega
        have hrec := ih (l.drop B) (by rw [hdl]; exact hlen')
        obtain ⟨ih1, ih2, ih3, ih4, ih5⟩ := hrec
        have htakelen : (l.take B).length = B := by
          simp [Nat.min_eq_left hge]
        refine ⟨?_, ?_, ?_, ?_, ?_⟩
        · simp only [List.length_cons, ih1, hdl]
          rw [harith1, Nat.add_div_right _ hB]
        · simp only [List.flatten_cons, ih2]
          exact List.take_append_drop B l
        · cases hout : batch_generator (l.drop B) (B : Int) with
          | nil => simp
          | cons c cs =>
            intro b hb
            rw [List.dropLast_cons₂] at hb
            rcases List.mem_cons.mp hb with h | h
            · rw [h]; exact htakelen
            · exact ih3 b (by rw [hout]; exact h)
        · intro hmod
          have hmod' : (l.drop B).length % B ≠ 0 := by
            rw [hdl, ← hmodeq]; exact hmod
          obtain ⟨b, hb, hblen⟩ := ih4 hmod'
          cases hout : batch_generator (l.drop B) (B : Int) with
          | nil => rw [hout] at hb; simp at hb
          | cons c cs =>
            rw [hout] at hb
            refine ⟨b, ?_, ?_⟩
            · rw [List.getLast?_cons_cons]; exact hb
            · rw [hblen, hdl, ← hmodeq]
        · intro hmod _
          by_cases hdnil : l.drop B = []
          · rw [hdnil, batch_generator_nil]
            exact ⟨l.take B, by simp, htakelen⟩
          · have hmod' : (l.drop B).length % B = 0 := by
              rw [hdl, ← hmodeq]; exact hmod
            obtain ⟨b, hb, hblen⟩ := ih5 hmod' hdnil
            cases hout : batch_generator (l.drop B) (B : Int) with
            | nil => rw [hout] at hb; simp at hb
            | cons c cs =>
              rw [hout] at hb
              exact ⟨b, by rw [List.getLast?_cons_cons]; exact hb, hblen⟩

/-- C4: For every finite input sequence of length `L` and batch size `B > 0`,
`DumpReader.batch_generator` yields exactly `ceil(L/B)` batches in input order
(their concatenation is the input), every batch except possibly the last has
length `B`, and the last has length `L mod B` when `B` does not divide `L`
(otherwise `B`). -/
theorem batching_yields_ceil_batches {T : Type} (l : List T) (B : Nat) (hB : 0 < B) :
    (batch_generator l (B : Int)).length = (l.length + B - 1) / B
    ∧ (batch_generator l (B : Int)).flatten = l
    ∧ (∀ b ∈ (batch_generator l (B : Int)).dropLast, b.length = B)
    ∧ (l.length % B ≠ 0 →
        ∃ b, (batch_generator l (B : Int)).getLast? = some b ∧ b.length = l.length % B)
    ∧ (l.length % B = 0 → l ≠ [] →
        ∃ b, (batch_generator l (B : Int)).getLast? = some b ∧ b.length = B) :=
  batcher_all B hB l.length l le_rfl

/-- Witness for C4: batching five elements with batch size two yields three
batches `[[0,1],[2,3],[4]]`. -/
theorem batching_yields_ceil_batches_witness :
    (0 < 2
    ∧ (batch_generator ([0, 1, 2, 3, 4] : List Nat) (2 : Int)).length = (5 + 2 - 1) / 2)
    ∧ batch_generator ([0, 1, 2, 3, 4] : List Nat) (2 : Int) = [[0, 1], [2, 3], [4]] :=
  ⟨⟨by decide, (batching_yields_ceil_batches [0, 1, 2, 3, 4] 2 (by decide)).1⟩, by decide⟩

/-- Every batch emitted by `bgAux` is non-empty (the loop only yields right
after an append, and the trailing yield is guarded by `if batch`). -/
theorem bgAux_mem_ne_nil {T : Type} (bs : Int) :
    ∀ (l acc : List T), ∀ b ∈ bgAux bs acc l, b ≠ [] := by
  intro l
  induction l with
  | nil =>
    intro acc b hb
    simp only [bgAux] at hb
    by_cases h : acc.isEmpty
    · rw [if_pos h] at hb; simp at hb
    · rw [if_neg h] at hb
      have : b = acc := by simpa using hb
      rw [this]
      simpa using h
  | cons x rest ih =>
    intro acc b hb
    simp only [bgAux] at hb
    by_cases h : ((acc ++ [x]).length : Int) = bs
    · rw [if_pos h] at hb
      rcases List.mem_cons.mp hb with h1 | h1
      · rw [h1]; simp
      · exact ih [] b h1
    · rw [if_neg h] at hb
      exact ih (acc ++ [x]) b hb

theorem bgAux_nonpositive {T : Type} (bs : Int) (hbs : bs ≤ 0) :
    ∀ (l acc : List T), bgAux bs acc l = if (acc ++ l).isEmpty then [] else [acc ++ l] := by
  intro l
  induction l with
  | nil =>
    intro acc
    simp only [bgAux]
    rw [List.append_nil]
  | cons x rest ih =>
    intro acc
    have hne : ¬ (((acc ++ [x]).length : Int) = bs) := by
      have : (1 : Int) ≤ ((acc ++ [x]).length : Int) := by
        have : 1 ≤ (acc ++ [x]).length := by simp
        exact_mod_cast this
      omega
    simp only [bgAux, if_neg hne]
    rw [ih (acc ++ [x])]
    have hemp : ((acc ++ [x]) ++ rest).isEmpty = false := by simp
    have hemp2 : (acc ++ x :: rest).isEmpty = false := by simp
    rw [hemp, hemp2]
    simp [List.append_assoc]

/-- C10: `DumpReader.batch_generator` never yields an empty batch; on an empty
input it yields no batches; a non-positive `batch_size` is not rejected, and the
whole (non-empty) input comes back as one single batch. -/
theorem batch_generator_degenerate_sizes {T : Type} (l : List T) (bs : Int) :
    (∀ b ∈ batch_generator l bs, b ≠ [])
    ∧ batch_generator ([] : List T) bs = []
    ∧ (bs ≤ 0 → l ≠ [] → batch_generator l bs = [l]) := by
  refine ⟨fun b hb => bgAux_mem_ne_nil bs l [] b hb, rfl, ?_⟩
  intro hbs hl
  rw [batch_generator, bgAux_nonpositive bs hbs l []]
  simp [hl]

/-- Witness for C10: with `batch_size = -1`, a three-element input comes back
as one single batch. -/
theorem batch_generator_degenerate_sizes_witness :
    ((-1 : Int) ≤ 0 ∧ ([1, 2, 3] : List Nat) ≠ [])
    ∧ batch_generator ([1, 2, 3] : List Nat) (-1 : Int) = [[1, 2, 3]] :=
  ⟨⟨by decide, by decide⟩,
    (batch_generator_degenerate_sizes [1, 2, 3] (-1)).2.2 (by decide) (by decide)⟩

/-- C5: after any sequence of operations, `__len__` is the length of the
success list plus the length of the failure list, the adds contribute exactly
one entry each, and `has_failed` is untouched unless `mark_failed` or the
`has_failed` setter occurs in the sequence (in particular `add_err` never sets
it). -/
theorem stage_result_len_and_flag {T E : Type} (sr : StageResult T E)
    (ops : List (StageOp T E)) :
    (applyStageOps sr ops).size
      = (applyStageOps sr ops).success.length + (applyStageOps sr ops).failed.length
    ∧ (applyStageOps sr ops).size
      = sr.size + (ops.filter StageOp.isAddOk).length + (ops.filter StageOp.isAddErr).length
    ∧ ((∀ op ∈ ops, op.isFlagOp = false) → (applyStageOps sr ops).has_failed = sr.has_failed) := by
  refine ⟨rfl, ?_, ?_⟩
  · induction ops generalizing sr with
    | nil => simp [applyStageOps]
    | cons op rest ih =>
      have hstep : applyStageOps sr (op :: rest) = applyStageOps (applyStageOp sr op) rest := rfl
      rw [hstep, ih (applyStageOp sr op)]
      cases op <;>
        simp [applyStageOp, StageResult.add_ok, StageResult.add_err, StageResult.mark_failed,
          StageResult.set_has_failed, StageResult.size, StageOp.isAddOk, StageOp.isAddErr,
          List.filter] <;> omega
  · induction ops generalizing sr with
    | nil => intro _; rfl
    | cons op rest ih =>
      intro hflag
      have hstep : applyStageOps sr (op :: rest) = applyStageOps (applyStageOp sr op) rest := rfl
      rw [hstep, ih (applyStageOp sr op) (fun o ho => hflag o (List.mem_cons_of_mem op ho))]
      have hop := hflag op (List.mem_cons_self op rest)
      cases op <;> simp_all [applyStageOp, StageOp.isFlagOp, StageResult.add_ok,
        StageResult.add_err]

/-- Witness for C5: two `add_err`s and one `add_ok` on a fresh result give
`len = 3` with `has_failed` still `false`. -/
theorem stage_result_len_and_flag_witness :
    (∀ op ∈ ([.addErr "e1", .addOk "r1", .addErr "e2"] : List (StageOp String String)),
      op.isFlagOp = false)
    ∧ (applyStageOps ⟨"s", "d", false, [], []⟩
        ([.addErr "e1", .addOk "r1", .addErr "e2"] : List (StageOp String String))).size = 3
    ∧ (applyStageOps ⟨"s", "d", false, [], []⟩
        ([.addErr "e1", .addOk "r1", .addErr "e2"] : List (StageOp String String))).has_failed
      = false :=
  ⟨by decide,
    by
      have h := (stage_result_len_and_flag ⟨"s", "d", false, [], []⟩
        ([.addErr "e1", .addOk "r1", .addErr "e2"] : List (StageOp String String))).2.1
      simpa using h,
    (stage_result_len_and_flag ⟨"s", "d", false, [], []⟩
        ([.addErr "e1", .addOk "r1", .addErr "e2"] : List (StageOp String String))).2.2
      (by decide)⟩

/-- The entry fold appends one success or one failure per record, in order. -/
theorem entry_fold_spec (json_loads : String → Except String Json)
    (extract_year : String → Bool → Int × Bool) :
    ∀ (batch : List TransportRecord) (sr : StageResult IRecord String),
      (batch.foldl
        (fun result record =>
          match process_record json_loads extract_year (some record) with
          | Except.ok r => result.add_ok r
          | Except.error e => result.add_err e) sr)
      = { sr with
          success := sr.success ++ batch.filterMap (fun r =>
            match process_record json_loads extract_year (some r) with
            | Except.ok v => some v
            | Except.error _ => none),
          failed := sr.failed ++ batch.filterMap (fun r =>
            match process_record json_loads extract_year (some r) with
            | Except.error e => some e
            | Except.ok _ => none) } := by
  intro batch
  induction batch with
  | nil => intro sr; simp
  | cons r rest ih =>
    intro sr
    simp only [List.foldl_cons, List.filterMap_cons]
    cases hpr : process_record json_loads extract_year (some r) with
    | ok v =>
      rw [ih (sr.add_ok v)]
      simp [StageResult.add_ok, List.append_assoc]
    | error e =>
      rw [ih (sr.add_err e)]
      simp [StageResult.add_err, List.append_assoc]

/-- Exactly one entry lands in the result per input record. -/
theorem filterMap_ok_err_length (json_loads : String → Except String Json)
    (extract_year : String → Bool → Int × Bool) (batch : List TransportRecord) :
    (batch.filterMap (fun r =>
        match process_record json_loads extract_year (some r) with
        | Except.ok v => some v
        | Except.error _ => none)).length
      + (batch.filterMap (fun r =>
          match process_record json_loads extract_year (some r) with
          | Except.error e => some e
          | Except.ok _ => none)).length
      = batch.length := by
  induction batch with
  | nil => rfl
  | cons r rest ih =>
    simp only [List.filterMap_cons]
    cases hpr : process_record json_loads extract_year (some r) <;>
      simp only [List.length_cons] <;> omega

/-- C3: the entry parse of a batch never raises — "work"-tagged records,
unknown tags and normalizer exceptions (e.g. a `json.loads` failure) each
contribute one `Err` entry carrying the exception message, the remaining
records still contribute their own entry, and the result partitions the batch
entry-for-entry in input order. -/
theorem entry_parsing_isolates_failures (json_loads : String → Except String Json)
    (extract_year : String → Bool → Int × Bool) (batch : List TransportRecord) :
    (∃ sr, make_entry_stage_from_generator json_loads extract_year (some batch) = Except.ok sr
      ∧ sr.success.length + sr.failed.length = batch.length
      ∧ sr.success = batch.filterMap (fun r =>
          match process_record json_loads extract_year (some r) with
          | Except.ok v => some v
          | Except.error _ => none)
      ∧ sr.failed = batch.filterMap (fun r =>
          match process_record json_loads extract_year (some r) with
          | Except.error e => some e
          | Except.ok _ => none)
      ∧ sr.has_failed = false)
    ∧ (∀ r : TransportRecord, lastSegment r.r_type = "work" →
        process_record json_loads extract_year (some r)
          = Except.error "work record processing not implemented")
    ∧ (∀ r : TransportRecord, lastSegment r.r_type ≠ "work" →
        lastSegment r.r_type ≠ "edition" → lastSegment r.r_type ≠ "author" →
        process_record json_loads extract_year (some r)
          = Except.error ("Unknown record type: " ++ lastSegment r.r_type))
    ∧ (∀ (r : TransportRecord) (msg : String), lastSegment r.r_type = "edition" →
        json_loads r.json_string = Except.error msg →
        process_record json_loads extract_year (some r) = Except.error msg) := by
  refine ⟨?_, ?_, ?_, ?_⟩
  · refine ⟨_, rfl, ?_, ?_, ?_, ?_⟩
    · rw [entry_fold_spec json_loads extract_year batch]
      simp only [List.nil_append]
      exact filterMap_ok_err_length json_loads extract_year batch
    · rw [entry_fold_spec json_loads extract_year batch]
      simp
    · rw [entry_fold_spec json_loads extract_year batch]
      simp
    · rw [entry_fold_spec json_loads extract_year batch]
  · intro r h
    rw [process_record, h]
    rfl
  · intro r h1 h2 h3
    rw [process_record, if_neg h1, if_neg h2, if_neg h3]
  · intro r msg htag hjl
    rw [process_record, htag]
    have h1 : ("edition" : String) ≠ "work" := by decide
    rw [if_neg h1, if_pos rfl]
    rw [process_edition_record]
    rw [hjl]
    rfl

/-- Witness for C3: a batch holding a work record and an edition record whose
payload fails to parse yields two `Err` entries and no exception. -/
theorem entry_parsing_isolates_failures_witness :
    lastSegment "/type/work" = "work"
    ∧ process_record (fun _ => Except.error "Expecting value: line 1 column 1 (char 0)")
        (fun _ _ => ((-1 : Int), false)) (some ⟨"/works/OL1W", "{}", "/type/work"⟩)
      = Except.error "work record processing not implemented"
    ∧ (∃ sr, make_entry_stage_from_generator
        (fun _ => Except.error "Expecting value: line 1 column 1 (char 0)")
        (fun _ _ => ((-1 : Int), false))
        (some [⟨"/works/OL1W", "not json", "/type/work"⟩,
               ⟨"/books/OL1M", "not json", "/type/edition"⟩])
        = Except.ok sr
      ∧ sr.success.length + sr.failed.length = 2
      ∧ sr.failed = ["work record processing not implemented",
                     "Expecting value: line 1 column 1 (char 0)"]) := by
  refine ⟨rfl, ?_, ?_⟩
  · exact (entry_parsing_isolates_failures
      (fun _ => Except.error "Expecting value: line 1 column 1 (char 0)")
      (fun _ _ => ((-1 : Int), false)) []).2.1
      ⟨"/works/OL1W", "{}", "/type/work"⟩ rfl
  · obtain ⟨sr, h1, h2, _, h4, _⟩ := (entry_parsing_isolates_failures
      (fun _ => Except.error "Expecting value: line 1 column 1 (char 0)")
      (fun _ _ => ((-1 : Int), false))
      [⟨"/works/OL1W", "not json", "/type/work"⟩,
       ⟨"/books/OL1M", "not json", "/type/edition"⟩]).1
    exact ⟨sr, h1, by rw [h2]; rfl, by rw [h4]; rfl⟩

/-- Counterexample for C6: a bare string author ID `"OL1A"` is silently
dropped by the `isinstance(a, dict)` guard — the resulting `EditionRecord` has
`authors == []`, not `["OL1A"]`. -/
theorem edition_bare_string_author_dropped :
    lastSegment "/type/edition" = "edition"
    ∧ (∃ r, process_edition_record
        (fun _ => Except.ok (Json.obj
          [("title", Json.str "X"), ("authors", Json.arr [Json.str "OL1A"])]))
        (fun _ _ => ((-1 : Int), false))
        ⟨"/books/OL1M", "\x7b\"title\": \"X\", \"authors\": [\"OL1A\"]\x7d", "/type/edition"⟩
        = Except.ok r
      ∧ r.authors = [] ∧ r.authors ≠ ["OL1A"]) :=
  ⟨rfl, _, rfl, rfl, by decide⟩

/-- C6 (amended): edition normalization maps each `{key: "/prefix/ID"}` link
object to the trailing ID segment but silently skips bare string IDs (they are
not dicts); the spec scenario with a link object parses to
`authors == ["OL1A"]`. -/
theorem edition_author_link_normalization (extract_year : String → Bool → Int × Bool) :
    (∀ ps : List String,
      linkRefs (ps.map (fun p => Json.obj [("key", Json.str p)])) = Except.ok (ps.map lastSegment))
    ∧ (∀ ss : List String, linkRefs (ss.map Json.str) = Except.ok [])
    ∧ (∀ ol_id : String,
        ∃ r, process_edition_data extract_year ol_id
            [("title", Json.str "X"),
             ("authors", Json.arr [Json.obj [("key", Json.str "/authors/OL1A")]])]
          = Except.ok r ∧ r.authors = ["OL1A"]) := by
  refine ⟨?_, ?_, ?_⟩
  · intro ps
    induction ps with
    | nil => rfl
    | cons p rest ih =>
      simp only [List.map_cons, linkRefs]
      rw [ih]
      rfl
  · intro ss
    induction ss with
    | nil => rfl
    | cons s rest ih =>
      simp only [List.map_cons, linkRefs]
      exact ih
  · intro ol_id
    exact ⟨_, rfl, rfl⟩

/-- C7 (code evaluated at the failing input): `_initialize_stages` accepts
empty factory lists and rejects mismatched lengths, but for any non-empty
pair of valid factories the loop header `for i, stage, ctx in enumerate(s)`
raises `ValueError` before `initialize` is ever called. -/
theorem init_stages_unpack_bug :
    init_stages (some []) (some []) = Except.ok []
    ∧ init_stages (some [fun _ => sampleStage]) (some [])
      = Except.error "stage_factory and ctx_factory must have the same length"
    ∧ init_stages (some [fun _ => sampleStage]) (some [fun _ => PipelineContext.mk])
      = Except.error "not enough values to unpack (expected 3, got 2)" :=
  ⟨rfl, rfl, rfl⟩

/-- C8 (code evaluated at the failing input): a worker invoked with no stages
(`stage_factory=None`, the default) raises `ValueError` from
`_initialize_stages` instead of no-op draining; only explicitly empty factory
lists give the claimed behaviour — the stream is drained (the batch appears,
already entry-parsed) and the worker completes with no shutdown events. -/
theorem worker_no_stages_raises :
    worker_thread (fun _ => Except.error "Expecting value: line 1 column 1 (char 0)")
      (fun _ _ => ((-1 : Int), false)) "a\tb\tc\td\te\n".data 0 12 250 none none
      = Except.error "stage_factory must be a list of callables producing StageInterface instances"
    ∧ worker_thread (fun _ => Except.error "Expecting value: line 1 column 1 (char 0)")
      (fun _ _ => ((-1 : Int), false)) "a\tb\tc\td\te\n".data 0 12 250 (some []) (some [])
      = Except.ok ([some entryUnknownA], []) :=
  ⟨rfl, rfl⟩

theorem shutdownLoop_eq_map (l : List (StageModel × PipelineContext)) :
    shutdownLoop l = l.map shutdownEvent := by
  induction l with
  | nil => rfl
  | cons sc rest ih => simp [shutdownLoop, ih]

theorem shutdownEvent_fst (sc : StageModel × PipelineContext) :
    (shutdownEvent sc).1 = sc.1.stage_name := by
  rw [shutdownEvent]
  cases sc.1.shutdown sc.2 <;> rfl

/-- C9: the shutdown phase produces exactly one event per stage, in strict
reverse initialization order, and each stage's event depends only on its own
`shutdown` outcome — a raising shutdown is caught as a `false` event and
cannot suppress any later event. -/
theorem shutdown_reverse_best_effort (pipeline : List (StageModel × PipelineContext)) :
    shutdown_stages pipeline = pipeline.reverse.map shutdownEvent
    ∧ (shutdown_stages pipeline).map Prod.fst
      = (pipeline.map (fun sc => sc.1.stage_name)).reverse
    ∧ (shutdown_stages pipeline).length = pipeline.length := by
  have h1 : shutdown_stages pipeline = pipeline.reverse.map shutdownEvent :=
    shutdownLoop_eq_map pipeline.reverse
  refine ⟨h1, ?_, ?_⟩
  · rw [h1, List.map_map]
    rw [← List.map_reverse]
    congr 1
    funext sc
    exact shutdownEvent_fst sc
  · rw [h1]; simp

theorem isNewLine_zero (data : List Char) : isNewLine data 0 = true := rfl

theorem walkBack_le (data : List Char) : ∀ e, walkBack data e ≤ e := by
  intro e
  induction e with
  | zero => exact Nat.le_refl 0
  | succ e ih =>
    rw [walkBack]
    by_cases h : isNewLine data (e + 1) = true
    · rw [if_pos h]
    · rw [if_neg h]
      exact Nat.le_succ_of_le ih

theorem walkBack_newline (data : List Char) : ∀ e, isNewLine data (walkBack data e) = true := by
  intro e
  induction e with
  | zero => exact isNewLine_zero data
  | succ e ih =>
    rw [walkBack]
    by_cases h : isNewLine data (e + 1) = true
    · rw [if_pos h]; exact h
    · rw [if_neg h]; exact ih

theorem walkBack_ge (data : List Char) :
    ∀ e s, s ≤ e → isNewLine data s = true → s ≤ walkBack data e := by
  intro e
  induction e with
  | zero => intro s hs _; rw [Nat.le_zero.mp hs]; exact Nat.le_refl 0
  | succ e ih =>
    intro s hs hnew
    rw [walkBack]
    by_cases h : isNewLine data (e + 1) = true
    · rw [if_pos h]; exact hs
    · rw [if_neg h]
      rcases Nat.lt_or_ge s (e + 1) with hlt | hge
      · exact ih s (Nat.lt_succ_iff.mp hlt) hnew
      · rw [Nat.le_antisymm hs hge] at hnew
        exact absurd hnew h

theorem lineLen_le : ∀ s : List Char, lineLen s ≤ s.length := by
  intro s
  induction s with
  | nil => exact Nat.le_refl 0
  | cons c rest ih =>
    rw [lineLen]
    by_cases h : c = '\n'
    · rw [if_pos h]; simp
    · rw [if_neg h]
      simp only [List.length_cons]
      omega

theorem lineLen_pos : ∀ s : List Char, s ≠ [] → 1 ≤ lineLen s := by
  intro s hs
  cases s with
  | nil => exact absurd rfl hs
  | cons c rest =>
    rw [lineLen]
    by_cases h : c = '\n'
    · rw [if_pos h]
    · rw [if_neg h]; omega

theorem lineLen_no_newline :
    ∀ (s : List Char) (i : Nat), i + 1 < lineLen s → s[i]? ≠ some '\n' := by
  intro s
  induction s with
  | nil => intro i h; rw [lineLen] at h; omega
  | cons c rest ih =>
    intro i h
    rw [lineLen] at h
    by_cases hc : c = '\n'
    · rw [if_pos hc] at h; omega
    · rw [if_neg hc] at h
      cases i with
      | zero => simpa using hc
      | succ i =>
        have : i + 1 < lineLen rest := by omega
        simpa using ih i this

theorem lineLen_last :
    ∀ s : List Char, lineLen s = s.length ∨ s[lineLen s - 1]? = some '\n' := by
  intro s
  induction s with
  | nil => exact Or.inl rfl
  | cons c rest ih =>
    rw [lineLen]
    by_cases hc : c = '\n'
    · rw [if_pos hc]
      exact Or.inr (by simp [hc])
    · rw [if_neg hc]
      rcases ih with h | h
      · refine Or.inl ?_
        simp only [List.length_cons, h]
        omega
      · refine Or.inr ?_
        have hpos : 1 ≤ lineLen rest := by
          by_contra hlt
          have h0 : lineLen rest = 0 := by omega
          rw [h0] at h
          cases rest with
          | nil => simp at h
          | cons d ds =>
            rw [lineLen] at h0
            by_cases hd : d = '\n' <;> simp [hd] at h0
        have h1 : 1 + lineLen rest - 1 = (lineLen rest - 1) + 1 := by omega
        rw [h1]
        simpa using h

theorem drop_ne_nil (data : List Char) (pos : Nat) (h : pos < data.length) :
    data.drop pos ≠ [] := by
  intro hc
  have hlen := congrArg List.length hc
  simp only [List.length_drop, List.length_nil] at hlen
  omega

theorem nextLine_gt (data : List Char) (pos : Nat) (h : pos < data.length) :
    pos < nextLine data pos := by
  rw [nextLine]
  have := lineLen_pos (data.drop pos) (drop_ne_nil data pos h)
  omega

theorem nextLine_le (data : List Char) (pos : Nat) (h : pos ≤ data.length) :
    nextLine data pos ≤ data.length := by
  rw [nextLine]
  have h1 := lineLen_le (data.drop pos)
  have h2 : (data.drop pos).length = data.length - pos := by simp
  omega

theorem nextLine_newline (data : List Char) (pos : Nat) (h : pos < data.length) :
    isNewLine data (nextLine data pos) = true ∨ nextLine data pos = data.length := by
  rcases lineLen_last (data.drop pos) with hl | hl
  · right
    rw [nextLine, hl]
    simp only [List.length_drop]
    omega
  · left
    have hL1 : 1 ≤ lineLen (data.drop pos) := lineLen_pos _ (drop_ne_nil data pos h)
    have hget : data[pos + lineLen (data.drop pos) - 1]? = some '\n' := by
      have heq : pos + lineLen (data.drop pos) - 1 = pos + (lineLen (data.drop pos) - 1) := by
        omega
      rw [heq, ← List.getElem?_drop]
      exact hl
    rw [nextLine, isNewLine, hget]
    simp

theorem chunkEnd_spec (data : List Char) (chunk_size s : Nat)
    (hlt : s < data.length) (hal : isNewLine data s = true) :
    s < chunkEnd data chunk_size s
    ∧ chunkEnd data chunk_size s ≤ data.length
    ∧ (isNewLine data (chunkEnd data chunk_size s) = true
        ∨ chunkEnd data chunk_size s = data.length) := by
  rw [chunkEnd]
  have hs_e0 : s ≤ min data.length (s + chunk_size) :=
    le_min (Nat.le_of_lt hlt) (Nat.le_add_right s chunk_size)
  have he1_le : walkBack data (min data.length (s + chunk_size))
      ≤ min data.length (s + chunk_size) := walkBack_le data _
  have he1_ge : s ≤ walkBack data (min data.length (s + chunk_size)) :=
    walkBack_ge data _ s hs_e0 hal
  have he1_nl : isNewLine data (walkBack data (min data.length (s + chunk_size))) = true :=
    walkBack_newline data _
  have he1_len : walkBack data (min data.length (s + chunk_size)) ≤ data.length :=
    le_trans he1_le (min_le_left _ _)
  by_cases heq : walkBack data (min data.length (s + chunk_size)) = s
  · rw [if_pos heq, heq]
    exact ⟨nextLine_gt data s hlt, nextLine_le data s (Nat.le_of_lt hlt),
      nextLine_newline data s hlt⟩
  · rw [if_neg heq]
    exact ⟨lt_of_le_of_ne he1_ge (fun hc => heq hc.symm), he1_len, Or.inl he1_nl⟩

theorem chunkLoop_spec (data : List Char) (chunk_size : Nat) :
    ∀ (fuel s : Nat), s ≤ data.length →
      (isNewLine data s = true ∨ s = data.length) →
      data.length ≤ s + fuel →
      chained s (chunkLoop data chunk_size fuel s) data.length
      ∧ ∀ c ∈ chunkLoop data chunk_size fuel s,
          isNewLine data c.1 = true
          ∧ (isNewLine data c.2 = true ∨ c.2 = data.length) := by
  intro fuel
  induction fuel with
  | zero =>
    intro s hle _ hfuel
    have hs : s = data.length := by omega
    rw [chunkLoop]
    exact ⟨hs, by intro c hc; simp at hc⟩
  | succ fuel ih =>
    intro s hle hal hfuel
    rw [chunkLoop]
    by_cases hlt : s < data.length
    · rw [if_pos hlt]
      have halnew : isNewLine data s = true := by
        rcases hal with h | h
        · exact h
        · omega
      obtain ⟨hgt, hle2, hal2⟩ := chunkEnd_spec data chunk_size s hlt halnew
      obtain ⟨ihc, ihm⟩ := ih (chunkEnd data chunk_size s) hle2 hal2 (by omega)
      refine ⟨⟨rfl, hgt, ihc⟩, ?_⟩
      intro c hc
      rcases List.mem_cons.mp hc with h | h
      · rw [h]; exact ⟨halnew, hal2⟩
      · exact ihm c h
    · rw [if_neg hlt]
      have hs : s = data.length := by omega
      exact ⟨hs, by intro c hc; simp at hc⟩

theorem isNewLine_iff (data : List Char) (p : Nat) :
    isNewLine data p = true ↔ (p = 0 ∨ data[p - 1]? = some '\n') := by
  rw [isNewLine]
  simp

theorem chained_le : ∀ (l : List (Nat × Nat)) (s e : Nat), chained s l e → s ≤ e := by
  intro l
  induction l with
  | nil => intro s e h; exact le_of_eq h
  | cons c rest ih =>
    intro s e h
    obtain ⟨_, h2, h3⟩ := h
    exact le_trans (le_of_lt h2) (ih c.2 e h3)

theorem chained_mem_lt :
    ∀ (l : List (Nat × Nat)) (s e : Nat), chained s l e → ∀ c ∈ l, c.1 < c.2 := by
  intro l
  induction l with
  | nil => intro s e _ c hc; simp at hc
  | cons d rest ih =>
    intro s e h c hc
    obtain ⟨h1, h2, h3⟩ := h
    rcases List.mem_cons.mp hc with hcd | hcd
    · rw [hcd, h1]; exact h2
    · exact ih d.2 e h3 c hcd

theorem chained_mem_ge :
    ∀ (l : List (Nat × Nat)) (s e : Nat), chained s l e → ∀ c ∈ l, s ≤ c.1 := by
  intro l
  induction l with
  | nil => intro s e _ c hc; simp at hc
  | cons d rest ih =>
    intro s e h c hc
    obtain ⟨h1, h2, h3⟩ := h
    rcases List.mem_cons.mp hc with hcd | hcd
    · rw [hcd, h1]
    · exact le_trans (le_of_lt (h1 ▸ h2)) (ih d.2 e h3 c hcd)

theorem chained_pairwise :
    ∀ (l : List (Nat × Nat)) (s e : Nat), chained s l e →
      l.Pairwise (fun a b => a.2 ≤ b.1) := by
  intro l
  induction l with
  | nil => intro s e _; exact List.Pairwise.nil
  | cons d rest ih =>
    intro s e h
    obtain ⟨_, _, h3⟩ := h
    exact List.Pairwise.cons (fun b hb => chained_mem_ge rest d.2 e h3 b hb) (ih d.2 e h3)

theorem chained_cover :
    ∀ (l : List (Nat × Nat)) (s e : Nat), chained s l e →
      ∀ i, (s ≤ i ∧ i < e) ↔ ∃ c ∈ l, c.1 ≤ i ∧ i < c.2 := by
  intro l
  induction l with
  | nil =>
    intro s e h i
    rw [h]
    constructor
    · intro hc; omega
    · intro hc; simp at hc
  | cons d rest ih =>
    intro s e h i
    obtain ⟨h1, h2, h3⟩ := h
    have hde : d.2 ≤ e := chained_le rest d.2 e h3
    constructor
    · intro ⟨hsi, hie⟩
      by_cases hcase : i < d.2
      · exact ⟨d, List.mem_cons_self d rest, by omega, hcase⟩
      · obtain ⟨c, hcmem, hc1, hc2⟩ := (ih d.2 e h3 i).mp ⟨by omega, hie⟩
        exact ⟨c, List.mem_cons_of_mem d hcmem, hc1, hc2⟩
    · intro ⟨c, hcmem, hc1, hc2⟩
      rcases List.mem_cons.mp hcmem with hcd | hcd
      · rw [hcd] at hc1 hc2
        omega
      · have := (ih d.2 e h3 i).mpr ⟨c, hcd, hc1, hc2⟩
        omega

theorem chained_head :
    ∀ (l : List (Nat × Nat)) (s e : Nat), chained s l e → l ≠ [] →
      ∃ c0, l.head? = some c0 ∧ c0.1 = s := by
  intro l s e h hne
  cases l with
  | nil => exact absurd rfl hne
  | cons c rest => exact ⟨c, rfl, h.1⟩

theorem chained_getLast :
    ∀ (l : List (Nat × Nat)) (s e : Nat), chained s l e → l ≠ [] →
      ∃ cl, l.getLast? = some cl ∧ cl.2 = e := by
  intro l
  induction l with
  | nil => intro s e _ hne; exact absurd rfl hne
  | cons d rest ih =>
    intro s e h _
    obtain ⟨_, _, h3⟩ := h
    cases rest with
    | nil => exact ⟨d, rfl, h3⟩
    | cons d2 rest2 =>
      obtain ⟨cl, hcl, hcl2⟩ := ih d.2 e h3 (by simp)
      exact ⟨cl, by rw [List.getLast?_cons_cons]; exact hcl, hcl2⟩

/-- C2: for every file and every `max_cpu` with `min(max_cpu, cpu_count) >= 1`,
`get_file_chunks` returns contiguous, non-overlapping, non-degenerate chunks
whose union is exactly `[0, file_size)`; the first starts at 0, the last ends
at `file_size`, and every boundary is 0, `file_size`, or a position
immediately after a `\n` byte. -/
theorem get_file_chunks_partition (data : List Char) (max_cpu cpu_total : Nat)
    (h : 1 ≤ min max_cpu cpu_total) :
    ∃ chunks : List (Nat × Nat),
      get_file_chunks data max_cpu cpu_total
        = Except.ok (min max_cpu cpu_total, chunks.length, chunks)
      ∧ chained 0 chunks data.length
      ∧ (∀ c ∈ chunks, c.1 < c.2)
      ∧ (∀ c ∈ chunks,
          (c.1 = 0 ∨ c.1 = data.length ∨ data[c.1 - 1]? = some '\n')
          ∧ (c.2 = 0 ∨ c.2 = data.length ∨ data[c.2 - 1]? = some '\n'))
      ∧ chunks.Pairwise (fun a b => a.2 ≤ b.1)
      ∧ (∀ i, i < data.length ↔ ∃ c ∈ chunks, c.1 ≤ i ∧ i < c.2)
      ∧ (data.length ≠ 0 →
          (∃ c0, chunks.head? = some c0 ∧ c0.1 = 0)
          ∧ (∃ cl, chunks.getLast? = some cl ∧ cl.2 = data.length)) := by
  obtain ⟨hch, hmem⟩ := chunkLoop_spec data (data.length / min max_cpu cpu_total)
    (data.length + 1) 0 (Nat.zero_le _) (Or.inl (isNewLine_zero data)) (by omega)
  refine ⟨chunkLoop data (data.length / min max_cpu cpu_total) (data.length + 1) 0,
    ?_, hch, chained_mem_lt _ _ _ hch, ?_, chained_pairwise _ _ _ hch, ?_, ?_⟩
  · rw [get_file_chunks]
    rw [if_neg (by omega : ¬ (min max_cpu cpu_total < 1))]
  · intro c hc
    obtain ⟨hm1, hm2⟩ := hmem c hc
    constructor
    · rcases (isNewLine_iff data c.1).mp hm1 with h1 | h1
      · exact Or.inl h1
      · exact Or.inr (Or.inr h1)
    · rcases hm2 with h2 | h2
      · rcases (isNewLine_iff data c.2).mp h2 with h3 | h3
        · exact Or.inl h3
        · exact Or.inr (Or.inr h3)
      · exact Or.inr (Or.inl h2)
  · intro i
    have := chained_cover _ _ _ hch i
    constructor
    · intro hi
      exact this.mp ⟨Nat.zero_le i, hi⟩
    · intro hi
      exact (this.mpr hi).2
  · intro hne
    have hnil : chunkLoop data (data.length / min max_cpu cpu_total) (data.length + 1) 0 ≠ [] := by
      intro hc
      rw [hc] at hch
      exact hne hch.symm
    exact ⟨chained_head _ 0 data.length hch hnil, chained_getLast _ 0 data.length hch hnil⟩

/-- Witness for C2: a 9-byte file of three lines, split using 2 of 4 CPUs,
tiles `[0, 9)` as `[(0,3), (3,6), (6,9)]` with every boundary after a `\n`. -/
theorem get_file_chunks_partition_witness :
    1 ≤ min 2 4
    ∧ (∃ chunks : List (Nat × Nat),
        get_file_chunks "aa\nbb\ncc\n".data 2 4
          = Except.ok (min 2 4, chunks.length, chunks)
        ∧ chained 0 chunks "aa\nbb\ncc\n".data.length
        ∧ (∀ c ∈ chunks, c.1 < c.2)
        ∧ (∀ c ∈ chunks,
            (c.1 = 0 ∨ c.1 = "aa\nbb\ncc\n".data.length
              ∨ "aa\nbb\ncc\n".data[c.1 - 1]? = some '\n')
            ∧ (c.2 = 0 ∨ c.2 = "aa\nbb\ncc\n".data.length
              ∨ "aa\nbb\ncc\n".data[c.2 - 1]? = some '\n'))
        ∧ chunks.Pairwise (fun a b => a.2 ≤ b.1)
        ∧ (∀ i, i < "aa\nbb\ncc\n".data.length ↔ ∃ c ∈ chunks, c.1 ≤ i ∧ i < c.2)
        ∧ ("aa\nbb\ncc\n".data.length ≠ 0 →
            (∃ c0, chunks.head? = some c0 ∧ c0.1 = 0)
            ∧ (∃ cl, chunks.getLast? = some cl ∧ cl.2 = "aa\nbb\ncc\n".data.length)))
    ∧ get_file_chunks "aa\nbb\ncc\n".data 2 4 = Except.ok (2, 3, [(0, 3), (3, 6), (6, 9)]) :=
  ⟨by decide, get_file_chunks_partition "aa\nbb\ncc\n".data 2 4 (by decide), rfl⟩

theorem splitLinesGo_spec :
    ∀ (s acc : List Char), acc ≠ [] ∨ s ≠ [] →
      splitLinesGo acc s
        = (acc.reverse ++ s.take (lineLen s)) :: splitLines (s.drop (lineLen s)) := by
  intro s
  induction s with
  | nil =>
    intro acc hne
    have hacc : acc ≠ [] := by
      rcases hne with h | h
      · exact h
      · exact absurd rfl h
    rw [splitLinesGo, if_neg (by simpa using hacc)]
    rw [lineLen]
    simp [splitLines, splitLinesGo]
  | cons c rest ih =>
    intro acc _
    rw [splitLinesGo, lineLen]
    by_cases hc : c = '\n'
    · rw [if_pos hc, if_pos hc]
      subst hc
      simp only [List.take_succ_cons, List.take_zero, List.drop_succ_cons, List.drop_zero]
      rfl
    · rw [if_neg hc, if_neg hc]
      rw [ih (c :: acc) (Or.inl (by simp))]
      have h1 : 1 + lineLen rest = lineLen rest + 1 := Nat.add_comm 1 (lineLen rest)
      rw [h1, List.take_succ_cons, List.drop_succ_cons]
      simp [List.append_assoc]

theorem splitLines_cons (s : List Char) (h : s ≠ []) :
    splitLines s = s.take (lineLen s) :: splitLines (s.drop (lineLen s)) := by
  have := splitLinesGo_spec s [] (Or.inr h)
  simpa [splitLines] using this

theorem record_empty (data : List Char) (pos e : Nat) (h : data.length ≤ pos) :
    record_from_chunk_gen data pos e = [] := by
  rw [record_from_chunk_gen]
  have hdrop : data.drop pos = [] := List.drop_eq_nil_of_le h
  rw [hdrop]
  rfl

theorem record_step (data : List Char) (pos e : Nat) (h : pos < data.length) :
    record_from_chunk_gen data pos e
      = if e < pos + lineLen (data.drop pos) then []
        else (parseLine ((data.drop pos).take (lineLen (data.drop pos)))).toList
          ++ record_from_chunk_gen data (pos + lineLen (data.drop pos)) e := by
  rw [record_from_chunk_gen, splitLines_cons (data.drop pos) (drop_ne_nil data pos h)]
  rw [recordsOverLines]
  have hlen : ((data.drop pos).take (lineLen (data.drop pos))).length
      = lineLen (data.drop pos) := by
    rw [List.length_take]
    exact Nat.min_eq_left (lineLen_le (data.drop pos))
  rw [hlen]
  have hdd : (data.drop pos).drop (lineLen (data.drop pos))
      = data.drop (pos + lineLen (data.drop pos)) := by
    rw [List.drop_drop, Nat.add_comm]
  rw [hdd, record_from_chunk_gen]

theorem records_split (data : List Char) :
    ∀ (n pos m e : Nat), data.length - pos ≤ n → pos ≤ m → m ≤ e → m ≤ data.length →
      (isNewLine data m = true ∨ m = data.length) →
      record_from_chunk_gen data pos e
        = record_from_chunk_gen data pos m ++ record_from_chunk_gen data m e := by
  intro n
  induction n with
  | zero =>
    intro pos m e hn hpm _ _ _
    have hpos : data.length ≤ pos := by omega
    have hm : data.length ≤ m := le_trans hpos hpm
    rw [record_empty data pos e hpos, record_empty data pos m hpos,
      record_empty data m e hm]
    rfl
  | succ n ih =>
    intro pos m e hn hpm hme hmlen hal
    by_cases hlt : pos < data.length
    · have hL1 : 1 ≤ lineLen (data.drop pos) := lineLen_pos _ (drop_ne_nil data pos hlt)
      have hLle : lineLen (data.drop pos) ≤ data.length - pos := by
        have h1 := lineLen_le (data.drop pos)
        have h2 : (data.drop pos).length = data.length - pos := by simp
        omega
      by_cases hcase : pos + lineLen (data.drop pos) ≤ m
      · have hnobreak_e : ¬ (e < pos + lineLen (data.drop pos)) := by omega
        have hnobreak_m : ¬ (m < pos + lineLen (data.drop pos)) := by omega
        rw [record_step data pos e hlt, record_step data pos m hlt,
          if_neg hnobreak_e, if_neg hnobreak_m]
        rw [ih (pos + lineLen (data.drop pos)) m e (by omega) hcase hme hmlen hal]
        rw [List.append_assoc]
      · have hmp : m = pos := by
          by_contra hne
          have hplm : pos < m := by omega
          have hplen : pos + lineLen (data.drop pos) ≤ data.length := by omega
          have hal' : isNewLine data m = true := by
            rcases hal with h | h
            · exact h
            · omega
          rcases (isNewLine_iff data m).mp hal' with h0 | hnl
          · omega
          · have hidx : (data.drop pos)[m - 1 - pos]? = some '\n' := by
              rw [List.getElem?_drop]
              have heq : pos + (m - 1 - pos) = m - 1 := by omega
              rw [heq]
              exact hnl
            have hlt2 : (m - 1 - pos) + 1 < lineLen (data.drop pos) := by omega
            exact lineLen_no_newline (data.drop pos) (m - 1 - pos) hlt2 hidx
        subst hmp
        have hbreak : m < m + lineLen (data.drop m) := by omega
        rw [record_step data m m hlt, if_pos hbreak, List.nil_append]
    · have hpos : data.length ≤ pos := by omega
      have hm : data.length ≤ m := le_trans hpos hpm
      rw [record_empty data pos e hpos, record_empty data pos m hpos,
        record_empty data m e hm]
      rfl

theorem records_join (data : List Char) :
    ∀ (chunks : List (Nat × Nat)) (s : Nat), chained s chunks data.length →
      (∀ c ∈ chunks, isNewLine data c.2 = true ∨ c.2 = data.length) →
      (chunks.map (fun c => record_from_chunk_gen data c.1 c.2)).flatten
        = record_from_chunk_gen data s data.length := by
  intro chunks
  induction chunks with
  | nil =>
    intro s hch _
    have hs : s = data.length := hch
    rw [hs, record_empty data data.length data.length (le_refl _)]
    rfl
  | cons c rest ih =>
    intro s hch hal
    obtain ⟨h1, h2, h3⟩ := hch
    have hc2len : c.2 ≤ data.length := chained_le rest c.2 data.length h3
    have halc : isNewLine data c.2 = true ∨ c.2 = data.length :=
      hal c (List.mem_cons_self c rest)
    rw [List.map_cons, List.flatten_cons]
    rw [ih c.2 h3 (fun d hd => hal d (List.mem_cons_of_mem c hd))]
    rw [h1]
    exact (records_split data data.length s c.2 data.length (by omega)
      (le_of_lt h2) hc2len hc2len halc).symm

/-- Single-byte-character case: under the identification of one character
with one byte (exact for ASCII data), concatenating the per-chunk record
sequences of the chunks produced by `get_file_chunks`, in chunk order, yields
exactly the whole-file record sequence — the chunk boundaries are
line-aligned and a line is owned by the chunk containing its terminating
newline. On multibyte UTF-8 input the real reader diverges from this model;
see the C1 theorem `chunked_streaming_duplicates_record`. -/
theorem chunked_streaming_concat (data : List Char) (max_cpu cpu_total : Nat)
    (cpu_count chunk_count : Nat) (chunks : List (Nat × Nat))
    (hok : get_file_chunks data max_cpu cpu_total
      = Except.ok (cpu_count, chunk_count, chunks)) :
    (chunks.map (fun c => record_from_chunk_gen data c.1 c.2)).flatten
      = record_from_chunk_gen data 0 data.length := by
  rw [get_file_chunks] at hok
  by_cases h : min max_cpu cpu_total < 1
  · rw [if_pos h] at hok
    exact absurd hok (by simp)
  · rw [if_neg h] at hok
    have hchunks : chunks
        = chunkLoop data (data.length / min max_cpu cpu_total) (data.length + 1) 0 := by
      have hinj := Except.ok.inj hok
      exact (congrArg (fun p => p.2.2) hinj).symm
    rw [hchunks]
    obtain ⟨hch, hmem⟩ := chunkLoop_spec data (data.length / min max_cpu cpu_total)
      (data.length + 1) 0 (Nat.zero_le _) (Or.inl (isNewLine_zero data)) (by omega)
    exact records_join data _ 0 hch (fun c hc => (hmem c hc).2)

/-- Concrete instance of `chunked_streaming_concat`: a two-line, two-record
ASCII file split into two chunks; the concatenated per-chunk records equal
the whole-file records. -/
theorem chunked_streaming_concat_witness :
    get_file_chunks "a\tb\tc\td\te\nf\tg\th\ti\tj\n".data 2 2
      = Except.ok (2, 2, [(0, 10), (10, 20)])
    ∧ ([((0 : Nat), (10 : Nat)), (10, 20)].map (fun c =>
        record_from_chunk_gen "a\tb\tc\td\te\nf\tg\th\ti\tj\n".data c.1 c.2)).flatten
      = record_from_chunk_gen "a\tb\tc\td\te\nf\tg\th\ti\tj\n".data 0
          "a\tb\tc\td\te\nf\tg\th\ti\tj\n".data.length :=
  ⟨rfl, chunked_streaming_concat "a\tb\tc\td\te\nf\tg\th\ti\tj\n".data 2 2 2 2
    [(0, 10), (10, 20)] rfl⟩

theorem utf8EncodeChar_ascii (c : Char) (h : c.toNat < 128) : utf8EncodeChar c = [c] := by
  simp only [utf8EncodeChar]
  rw [if_pos h]

theorem utf8Bytes_ascii (data : List Char) (h : ∀ c ∈ data, c.toNat < 128) :
    utf8Bytes data = data := by
  induction data with
  | nil => rfl
  | cons c rest ih =>
    rw [utf8Bytes, List.map_cons, List.flatten_cons]
    rw [utf8EncodeChar_ascii c (h c (List.mem_cons_self c rest))]
    have hrest := ih (fun d hd => h d (List.mem_cons_of_mem c hd))
    rw [utf8Bytes] at hrest
    rw [hrest]
    rfl

theorem dropBytes_ascii (data : List Char) (h : ∀ c ∈ data, c.toNat < 128) :
    ∀ n, dropBytes data n = data.drop n := by
  induction data with
  | nil => intro n; rw [dropBytes]; simp
  | cons c rest ih =>
    intro n
    rw [dropBytes]
    by_cases hn : n = 0
    · rw [if_pos hn, hn, List.drop_zero]
    · rw [if_neg hn]
      have hc : utf8CharBytes c = 1 := by
        rw [utf8CharBytes, if_pos (h c (List.mem_cons_self c rest))]
      rw [hc, ih (fun d hd => h d (List.mem_cons_of_mem c hd)) (n - 1)]
      cases n with
      | zero => exact absurd rfl hn
      | succ m => simp

/-- On single-byte (ASCII) data the byte-accurate reader and the
byte-per-character reader agree, so `record_from_chunk_gen` is exact there. -/
theorem record_from_chunk_gen_utf8_ascii (data : List Char)
    (h : ∀ c ∈ data, c.toNat < 128) (chunk_start chunk_end : Nat) :
    record_from_chunk_gen_utf8 data chunk_start chunk_end
      = record_from_chunk_gen data chunk_start chunk_end := by
  rw [record_from_chunk_gen_utf8, record_from_chunk_gen,
    dropBytes_ascii data h chunk_start]

/-- C1, the code evaluated at a failing input: `get_file_chunks` computes
byte offsets (binary mode) while `record_from_chunk_gen` advances its running
offset by text-mode character counts (`chunk_start += len(line)`). For
`accentedFile` the chunker produces the byte chunks `(0, 23)` and `(23, 33)`,
but the first chunk's reader counts its 23-byte first line as 12 characters,
reaches only `22 ≤ 23` after the second line and yields that line's record
too; the second chunk yields it again. The concatenation holds the record
twice while the whole-file stream holds it once — a record is duplicated,
contradicting the claim. -/
theorem chunked_streaming_duplicates_record :
    get_file_chunks (utf8Bytes accentedFile) 2 2
      = Except.ok (2, 2, [(0, 23), (23, 33)])
    ∧ record_from_chunk_gen_utf8 accentedFile 0 23 = [duplicatedRecord]
    ∧ record_from_chunk_gen_utf8 accentedFile 23 33 = [duplicatedRecord]
    ∧ ([((0 : Nat), (23 : Nat)), (23, 33)].map
        (fun c => record_from_chunk_gen_utf8 accentedFile c.1 c.2)).flatten
      = [duplicatedRecord, duplicatedRecord]
    ∧ record_from_chunk_gen_utf8 accentedFile 0 (utf8Bytes accentedFile).length
      = [duplicatedRecord]
    ∧ ([duplicatedRecord, duplicatedRecord] : List TransportRecord)
      ≠ [duplicatedRecord] :=
  ⟨rfl, rfl, rfl, rfl, rfl, by decide⟩
